import Mathlib

/-!
Verification of the geometric primitives of `art/utils.py`: the `projection`
operator that clips a batch of perturbation vectors onto an L_p ball, and the
`random_sphere` sampler that draws points from an L_p ball.

Modelling conventions:
* NumPy float arrays are modelled over `ℝ`; a batch is a `List (List ℝ)`
  (the code flattens every row to 1-D before computing norms, so flattened
  rows are faithful).
* The `p` argument of both functions is compared against `np.inf`, `1`
  and `2`; it is modelled by `Pnorm`, either the infinity symbol or a
  finite number.
* A `raise NotImplementedError` is modelled by returning `none`.
* The random draws consumed by `random_sphere` are passed in explicitly as a
  `Draws` record; a "realization of the random draws" is a record whose
  fields satisfy the range constraints of the distributions they are drawn
  from (`L1DrawsOk`, `LinfDrawsOk`).
-/

namespace ArtUtils

/-- Value of the `p` / `norm` argument: `np.inf` or a finite number. -/
inductive Pnorm where
| pinf : Pnorm
| pfin (q : ℚ) : Pnorm
deriving DecidableEq

/-- NumPy `np.clip(a, lo, hi)` semantics: `minimum(hi, maximum(a, lo))`
(this is also what NumPy computes when `lo > hi`). -/
noncomputable def npClip (a lo hi : ℝ) : ℝ := min hi (max a lo)

/-- The scalar `tol = 10e-8` the code picks "to avoid division by 0". -/
noncomputable def tol : ℝ := 10 / 10 ^ 8

/-- NumPy `np.linalg.norm(row, ord=1)` of a flattened row: sum of absolute
values. -/
noncomputable def norm1 (row : List ℝ) : ℝ := (row.map (fun x => |x|)).sum

/-- Sum of squares of a row (`np.sum(a ** 2)`). -/
def sumSq (row : List ℝ) : ℝ := (row.map (fun x => x ^ 2)).sum

/-- NumPy `np.linalg.norm(row)` (default `ord=2`) of a flattened row. -/
noncomputable def norm2 (row : List ℝ) : ℝ := Real.sqrt (sumSq row)

/-- The L_infinity norm of a row: maximum of absolute values. -/
noncomputable def normInf (row : List ℝ) : ℝ := (row.map (fun x => |x|)).foldr max 0

/-- The norm that the dispatch of `projection` / `random_sphere` associates
to `p`; only meaningful for `p ∈ {1, 2, ∞}`, the values on which the two
functions return a result. -/
noncomputable def normP : Pnorm → List ℝ → ℝ
| Pnorm.pinf => normInf
| Pnorm.pfin q => if q = 1 then norm1 else norm2

/-- One row of the `p ∈ {1, 2}` branch of `projection`, translated line by
line from the source: `norm = eps / np.clip(norm, tol, norm)`,
`norm = np.clip(norm, norm, 1.0)`, `v * norm`. -/
noncomputable def projRow (nrmOf : List ℝ → ℝ) (eps : ℝ) (row : List ℝ) : List ℝ :=
  let nrm := nrmOf row
  let d := npClip nrm tol nrm
  let s := npClip (eps / d) (eps / d) 1
  row.map (fun x => x * s)

/-- The function `projection(v, eps, p)` of `art/utils.py`.  The
`p = np.inf` branch is `np.sign(v) * np.minimum(abs(v), eps)`; for
`p ∈ {1, 2}` each row is rescaled by `projRow`; any other `p` raises
`NotImplementedError`, modelled as `none`. -/
noncomputable def projection (v : List (List ℝ)) (eps : ℝ) (p : Pnorm) :
    Option (List (List ℝ)) :=
  match p with
  | Pnorm.pinf => some (v.map (fun row => row.map (fun x => Real.sign x * min |x| eps)))
  | Pnorm.pfin q =>
    if q = 1 then some (v.map (projRow norm1 eps))
    else if q = 2 then some (v.map (projRow norm2 eps))
    else none

/-- One realization of all random draws consumed by `random_sphere`:
`radii i` is the `np.random.uniform(0, r**2)` draw of row `i`; `cuts i` are
the `n-1` draws `np.random.uniform(0, A[i,-1], n-1)` of row `i`;
`signs i j` is entry `(i, j)` of the `np.random.choice([-1, 1], (m, n))`
array; `gauss i` is row `i` of the `np.random.randn(m, n)` matrix; and
`unifs i j` is entry `(i, j)` of the `np.random.uniform(-r, r, (m, n))`
array. -/
structure Draws where
  radii : ℕ → ℝ
  cuts : ℕ → List ℝ
  signs : ℕ → ℕ → ℝ
  gauss : ℕ → List ℝ
  unifs : ℕ → ℕ → ℝ

/-- NumPy `np.sort` on a 1-D float array. -/
noncomputable def npSort (l : List ℝ) : List ℝ := l.mergeSort (fun a b => decide (a ≤ b))

/-- Consecutive differences `A[1:] - A[:-1]` of a 1-D array. -/
def gaps : List ℝ → List ℝ
| x :: y :: rest => (y - x) :: gaps (y :: rest)
| _ => []

/-- Row `i` of the array `A` built by the `norm == 1` branch of
`random_sphere`: first entry `0` (from `np.zeros`), then the sorted `n-1`
uniform draws, then `A[i, -1] = sqrt(uniform(0, r**2))`. -/
noncomputable def l1Cuts (d : Draws) (i : ℕ) : List ℝ :=
  0 :: (npSort (d.cuts i) ++ [Real.sqrt (d.radii i)])

/-- Row `i` of the result of the `norm == 1` branch:
`(A[:, 1:] - A[:, :-1]) * np.random.choice([-1, 1], (m, n))`. -/
noncomputable def l1Row (n : ℕ) (d : Draws) (i : ℕ) : List ℝ :=
  List.zipWith (fun g s => g * s) (gaps (l1Cuts d i)) ((List.range n).map (d.signs i))

/-- Modelled from the semantics of the external `scipy.special.gammainc`:
the regularized lower incomplete gamma function
`P(a, x) = (1 / Γ(a)) * ∫_0^x t^(a-1) e^(-t) dt`. -/
noncomputable def regGammaP (a x : ℝ) : ℝ :=
  (∫ t in Set.Ioc 0 x, Real.exp (-t) * t ^ (a - 1)) / Real.Gamma a

/-- One row of the result of the `norm == 2` branch of `random_sphere`:
`base = gammainc(n/2, s2/2) ** (1/n) * r / np.sqrt(s2)` and `res = a * base`
with `s2 = np.sum(a ** 2, axis=1)`. -/
noncomputable def l2Row (n : ℕ) (r : ℝ) (a : List ℝ) : List ℝ :=
  let s2 := sumSq a
  let base := regGammaP ((n : ℝ) / 2) (s2 / 2) ^ ((1 : ℝ) / n) * r / Real.sqrt s2
  a.map (fun x => x * base)

/-- The function `random_sphere(m, n, r, norm)` of `art/utils.py`, with the
random draws passed explicitly.  `norm == 1` uses the order-statistics gap
construction, `norm == 2` the gamma-based radial scaling of a Gaussian
matrix, `norm == np.inf` an `m × n` uniform draw on `[-r, r]`; any other
`norm` raises `NotImplementedError`, modelled as `none`. -/
noncomputable def random_sphere (m n : ℕ) (r : ℝ) (p : Pnorm) (d : Draws) :
    Option (List (List ℝ)) :=
  match p with
  | Pnorm.pfin q =>
    if q = 1 then some ((List.range m).map (fun i => l1Row n d i))
    else if q = 2 then some ((List.range m).map (fun i => l2Row n r (d.gauss i)))
    else none
  | Pnorm.pinf =>
    some ((List.range m).map (fun i => (List.range n).map (fun j => d.unifs i j)))

/-- Range constraints satisfied by every realization of the draws used by
the `norm == 1` branch: `radii i` is drawn uniformly from `[0, r²]`,
`cuts i` are `n-1` draws from `[0, A[i,-1]]`, and each sign is `±1`. -/
def L1DrawsOk (m n : ℕ) (r : ℝ) (d : Draws) : Prop :=
  ∀ i < m, 0 ≤ d.radii i ∧ d.radii i ≤ r ^ 2 ∧
    (d.cuts i).length = n - 1 ∧
    (∀ c ∈ d.cuts i, 0 ≤ c ∧ c ≤ Real.sqrt (d.radii i)) ∧
    (∀ j < n, d.signs i j = 1 ∨ d.signs i j = -1)

/-- Range constraints satisfied by every realization of the draws used by
the `norm == np.inf` branch: every entry is drawn from `[-r, r]`. -/
def LinfDrawsOk (m n : ℕ) (r : ℝ) (d : Draws) : Prop :=
  ∀ i < m, ∀ j < n, -r ≤ d.unifs i j ∧ d.unifs i j ≤ r

/-- Entry `(i, j)` of a batch, with out-of-range defaults. -/
def entry (b : List (List ℝ)) (i j : ℕ) : ℝ := (b.getD i []).getD j 0

/-- A concrete realization of the draws: unit radii, no intermediate cuts,
all signs `+1`, empty Gaussian rows, zero uniform draws. -/
def dOnes : Draws := ⟨fun _ => 1, fun _ => [], fun _ _ => 1, fun _ => [], fun _ _ => 0⟩

/-- The realization `dOnes` with the single sign at `(0, 0)` flipped. -/
def dFlip : Draws :=
  ⟨fun _ => 1, fun _ => [], fun i j => if i = 0 then (if j = 0 then -1 else 1) else 1,
   fun _ => [], fun _ _ => 0⟩

/-- Shared properties of the two row norms used by the `p ∈ {1, 2}` branch
of `projection`: nonnegativity, absolute homogeneity under a per-row scalar,
and definiteness (a row of norm `0` is the zero row). -/
def GoodNorm (nrmOf : List ℝ → ℝ) : Prop :=
  (∀ row, 0 ≤ nrmOf row) ∧
  (∀ (row : List ℝ) (c : ℝ), nrmOf (row.map (fun x => x * c)) = nrmOf row * |c|) ∧
  (∀ row, nrmOf row = 0 → ∀ x ∈ row, x = 0)

/-! ### Basic facts about the embedded primitives -/

theorem npClip_self_right (x lo : ℝ) : npClip x lo x = x := by
  unfold npClip
  exact min_eq_left (le_max_left x lo)

theorem npClip_one (s : ℝ) : npClip s s 1 = min 1 s := by
  unfold npClip
  rw [max_self]

theorem tol_pos : 0 < tol := by
  unfold tol
  norm_num

/-- The two `np.clip` lines of `projection` reduce to: scale each row by
`min 1 (eps / nrmOf row)`. -/
theorem projRow_eq (nrmOf : List ℝ → ℝ) (eps : ℝ) (row : List ℝ) :
    projRow nrmOf eps row = row.map (fun x => x * min 1 (eps / nrmOf row)) := by
  simp only [projRow, npClip_self_right, npClip_one]

theorem sign_mul_abs_self (x : ℝ) : Real.sign x * |x| = x := by
  rcases lt_trichotomy x 0 with h | h | h
  · rw [Real.sign_of_neg h, abs_of_neg h]
    ring
  · simp [h]
  · rw [Real.sign_of_pos h, abs_of_pos h]
    ring

theorem map_eq_self_of_mem {α : Type} {l : List α} {f : α → α} (h : ∀ x ∈ l, f x = x) :
    l.map f = l := by
  induction l with
  | nil => rfl
  | cons a t ih =>
    simp only [List.map_cons, h a (by simp)]
    rw [ih fun x hx => h x (by simp [hx])]

/-! ### Claims C2, C5, C7 -/

/-- C2: the spec claims the divisor feeding the scale factor `eps / norm` is
clamped to at least the positive floor `tol` before dividing, so that no
division by zero occurs for zero-norm rows.  In the code the clamp is
`np.clip(norm, tol, norm)` whose upper bound is `norm` itself, so it is the
identity on every nonnegative input: for an all-zero row (whose `L2` norm is
`0`) the divisor stays `0`, strictly below `tol`, and `eps / 0` is computed. -/
theorem clip_divisor_is_identity :
    (∀ x : ℝ, npClip x tol x = x) ∧
    npClip (norm2 [(0 : ℝ)]) tol (norm2 [(0 : ℝ)]) = 0 ∧ 0 < tol := by
  refine ⟨fun x => npClip_self_right x tol, ?_, tol_pos⟩
  have h2 : norm2 [(0 : ℝ)] = 0 := by
    simp [norm2, sumSq]
  rw [h2, npClip_self_right]

/-- C5: for every `eps` and every supported `p ∈ {1, 2, ∞}`, `projection`
maps the all-zero batch to itself. -/
theorem projection_zero_batch :
    ∀ (m k : ℕ) (eps : ℝ),
      projection (List.replicate m (List.replicate k 0)) eps Pnorm.pinf
        = some (List.replicate m (List.replicate k 0)) ∧
      projection (List.replicate m (List.replicate k 0)) eps (Pnorm.pfin 1)
        = some (List.replicate m (List.replicate k 0)) ∧
      projection (List.replicate m (List.replicate k 0)) eps (Pnorm.pfin 2)
        = some (List.replicate m (List.replicate k 0)) := by
  intro m k eps
  refine ⟨?_, ?_, ?_⟩ <;>
    simp [projection, projRow_eq, List.map_replicate, Real.sign_zero]

/-- C7: for every finite `p ∉ {1, 2}` (hence any `p ∉ {1, 2, ∞}`), both
`projection` and `random_sphere` fail with the unsupported-norm error
(modelled as `none`) before producing any output. -/
theorem unsupported_norm_fails :
    ∀ (q : ℚ), q ≠ 1 → q ≠ 2 →
      (∀ (v : List (List ℝ)) (eps : ℝ), projection v eps (Pnorm.pfin q) = none) ∧
      (∀ (m n : ℕ) (r : ℝ) (d : Draws), random_sphere m n r (Pnorm.pfin q) d = none) := by
  intro q h1 h2
  constructor <;> intros <;> simp [projection, random_sphere, h1, h2]

/-- Witness for C7 at `p = 3`. -/
theorem unsupported_norm_fails_witness :
    projection [[(1 : ℝ)]] 1 (Pnorm.pfin 3) = none ∧
    random_sphere 1 1 1 (Pnorm.pfin 3) dOnes = none := by
  have h := unsupported_norm_fails 3 (by norm_num) (by norm_num)
  exact ⟨h.1 [[(1 : ℝ)]] 1, h.2 1 1 1 dOnes⟩

/-! ### Properties of the three norms -/

theorem norm1_nonneg (row : List ℝ) : 0 ≤ norm1 row := by
  apply List.sum_nonneg
  intro x hx
  obtain ⟨y, _, rfl⟩ := List.mem_map.1 hx
  exact abs_nonneg y

theorem sumSq_nonneg (row : List ℝ) : 0 ≤ sumSq row := by
  apply List.sum_nonneg
  intro x hx
  obtain ⟨y, _, rfl⟩ := List.mem_map.1 hx
  exact sq_nonneg y

theorem norm2_nonneg (row : List ℝ) : 0 ≤ norm2 row := Real.sqrt_nonneg _

theorem norm1_map_mul (row : List ℝ) (c : ℝ) :
    norm1 (row.map (fun x => x * c)) = norm1 row * |c| := by
  induction row with
  | nil => simp [norm1]
  | cons a t ih =>
    simp only [norm1, List.map_cons, List.sum_cons] at *
    rw [abs_mul, ih]
    ring

theorem sumSq_map_mul (row : List ℝ) (c : ℝ) :
    sumSq (row.map (fun x => x * c)) = sumSq row * c ^ 2 := by
  induction row with
  | nil => simp [sumSq]
  | cons a t ih =>
    simp only [sumSq, List.map_cons, List.sum_cons] at *
    rw [mul_pow, ih]
    ring

theorem norm2_map_mul (row : List ℝ) (c : ℝ) :
    norm2 (row.map (fun x => x * c)) = norm2 row * |c| := by
  unfold norm2
  rw [sumSq_map_mul, Real.sqrt_mul (sumSq_nonneg row), Real.sqrt_sq_eq_abs]

theorem norm1_eq_zero {row : List ℝ} (h : norm1 row = 0) : ∀ x ∈ row, x = 0 := by
  induction row with
  | nil => simp
  | cons a t ih =>
    simp only [norm1, List.map_cons, List.sum_cons] at h
    have ht : 0 ≤ (t.map (fun x => |x|)).sum := norm1_nonneg t
    have ha : 0 ≤ |a| := abs_nonneg a
    have ha0 : |a| = 0 := le_antisymm (by linarith) ha
    have ht0 : norm1 t = 0 := by
      unfold norm1
      linarith
    intro x hx
    rcases List.mem_cons.1 hx with rfl | hx
    · exact abs_eq_zero.1 ha0
    · exact ih ht0 x hx

theorem sumSq_eq_zero {row : List ℝ} (h : sumSq row = 0) : ∀ x ∈ row, x = 0 := by
  induction row with
  | nil => simp
  | cons a t ih =>
    simp only [sumSq, List.map_cons, List.sum_cons] at h
    have ht : 0 ≤ (t.map (fun x => x ^ 2)).sum := sumSq_nonneg t
    have ha : 0 ≤ a ^ 2 := sq_nonneg a
    have ha0 : a ^ 2 = 0 := le_antisymm (by linarith) ha
    have ht0 : sumSq t = 0 := by
      unfold sumSq
      linarith
    intro x hx
    rcases List.mem_cons.1 hx with rfl | hx
    · exact (pow_eq_zero_iff two_ne_zero).1 ha0
    · exact ih ht0 x hx

theorem norm2_eq_zero {row : List ℝ} (h : norm2 row = 0) : ∀ x ∈ row, x = 0 := by
  apply sumSq_eq_zero
  exact (Real.sqrt_eq_zero (sumSq_nonneg row)).1 h

theorem goodNorm_norm1 : GoodNorm norm1 :=
  ⟨norm1_nonneg, norm1_map_mul, fun _ h => norm1_eq_zero h⟩

theorem goodNorm_norm2 : GoodNorm norm2 :=
  ⟨norm2_nonneg, norm2_map_mul, fun _ h => norm2_eq_zero h⟩

theorem foldr_max_le {l : List ℝ} {c : ℝ} (hc : 0 ≤ c) (h : ∀ x ∈ l, x ≤ c) :
    l.foldr max 0 ≤ c := by
  induction l with
  | nil => exact hc
  | cons a t ih =>
    exact max_le (h a (by simp)) (ih fun x hx => h x (by simp [hx]))

theorem le_foldr_max {l : List ℝ} {x : ℝ} (hx : x ∈ l) : x ≤ l.foldr max 0 := by
  induction l with
  | nil => cases hx
  | cons a t ih =>
    rcases List.mem_cons.1 hx with rfl | hx
    · exact le_max_left _ _
    · exact le_trans (ih hx) (le_max_right _ _)

theorem normInf_le {row : List ℝ} {c : ℝ} (hc : 0 ≤ c) (h : ∀ x ∈ row, |x| ≤ c) :
    normInf row ≤ c := by
  apply foldr_max_le hc
  intro x hx
  obtain ⟨y, hy, rfl⟩ := List.mem_map.1 hx
  exact h y hy

theorem abs_le_normInf {row : List ℝ} {x : ℝ} (hx : x ∈ row) : |x| ≤ normInf row :=
  le_foldr_max (List.mem_map.2 ⟨x, hx, rfl⟩)

/-! ### Per-row behavior of the projector -/

theorem inf_entry_abs_le {eps : ℝ} (heps : 0 < eps) (y : ℝ) :
    |Real.sign y * min |y| eps| ≤ eps := by
  rw [abs_mul]
  have h1 : |Real.sign y| ≤ 1 := by
    rcases Real.sign_apply_eq y with h | h | h <;> rw [h] <;> norm_num
  have h2 : |min |y| eps| = min |y| eps :=
    abs_of_nonneg (le_min (abs_nonneg y) heps.le)
  calc |Real.sign y| * |min |y| eps| ≤ 1 * |min |y| eps| :=
        mul_le_mul_of_nonneg_right h1 (abs_nonneg _)
  _ = min |y| eps := by rw [one_mul, h2]
  _ ≤ eps := min_le_right _ _

theorem inf_entry_id {eps y : ℝ} (hy : |y| ≤ eps) :
    Real.sign y * min |y| eps = y := by
  rw [min_eq_left hy, sign_mul_abs_self]

theorem projRow_norm_le {nrmOf : List ℝ → ℝ} (hg : GoodNorm nrmOf) {eps : ℝ}
    (heps : 0 < eps) (row : List ℝ) : nrmOf (projRow nrmOf eps row) ≤ eps := by
  rw [projRow_eq, hg.2.1 row]
  rcases eq_or_lt_of_le (hg.1 row) with h0 | hpos
  · rw [← h0, zero_mul]
    exact heps.le
  · have hs : 0 < min 1 (eps / nrmOf row) := lt_min one_pos (div_pos heps hpos)
    rw [abs_of_pos hs, mul_min_of_nonneg _ _ (hg.1 row), mul_one, mul_comm,
      div_mul_cancel₀ _ (ne_of_gt hpos)]
    exact min_le_right _ _

theorem projRow_id {nrmOf : List ℝ → ℝ} (hg : GoodNorm nrmOf) {eps : ℝ} {row : List ℝ}
    (hle : nrmOf row ≤ eps) : projRow nrmOf eps row = row := by
  rw [projRow_eq]
  rcases eq_or_lt_of_le (hg.1 row) with h0 | hpos
  · apply map_eq_self_of_mem
    intro x hx
    rw [hg.2.2 row h0.symm x hx, zero_mul]
  · have h1 : (1 : ℝ) ≤ eps / nrmOf row := (one_le_div hpos).2 hle
    rw [min_eq_left h1]
    apply map_eq_self_of_mem
    intro x _
    exact mul_one x

theorem projection_pinf (v : List (List ℝ)) (eps : ℝ) :
    projection v eps Pnorm.pinf
      = some (v.map (fun row => row.map (fun x => Real.sign x * min |x| eps))) := rfl

theorem projection_pfin_one (v : List (List ℝ)) (eps : ℝ) :
    projection v eps (Pnorm.pfin 1) = some (v.map (projRow norm1 eps)) := by
  simp [projection]

theorem projection_pfin_two (v : List (List ℝ)) (eps : ℝ) :
    projection v eps (Pnorm.pfin 2) = some (v.map (projRow norm2 eps)) := by
  norm_num [projection]

theorem projection_pfin_other (v : List (List ℝ)) (eps : ℝ) {q : ℚ}
    (h1 : q ≠ 1) (h2 : q ≠ 2) : projection v eps (Pnorm.pfin q) = none := by
  simp [projection, h1, h2]

/-! ### Claims C1, C4, C6, C8 -/

/-- C1: for every batch, every `eps > 0` and every `p` on which `projection`
returns a result (`p ∈ {1, 2, ∞}`), every row of the output has `p`-norm at
most `eps` (exactly, in real arithmetic). -/
theorem projection_rows_norm_le :
    ∀ (v : List (List ℝ)) (eps : ℝ) (p : Pnorm) (out : List (List ℝ)),
      0 < eps → projection v eps p = some out →
      ∀ row ∈ out, normP p row ≤ eps := by
  intro v eps p out heps hp row hrow
  cases p with
  | pinf =>
    rw [projection_pinf, Option.some.injEq] at hp
    subst hp
    obtain ⟨row0, _, rfl⟩ := List.mem_map.1 hrow
    simp only [normP]
    exact normInf_le heps.le fun x hx => by
      obtain ⟨y, _, rfl⟩ := List.mem_map.1 hx
      exact inf_entry_abs_le heps y
  | pfin q =>
    by_cases hq1 : q = 1
    · subst hq1
      rw [projection_pfin_one, Option.some.injEq] at hp
      subst hp
      obtain ⟨row0, _, rfl⟩ := List.mem_map.1 hrow
      simpa [normP] using projRow_norm_le goodNorm_norm1 heps row0
    by_cases hq2 : q = 2
    · subst hq2
      rw [projection_pfin_two, Option.some.injEq] at hp
      subst hp
      obtain ⟨row0, _, rfl⟩ := List.mem_map.1 hrow
      simpa [normP] using projRow_norm_le goodNorm_norm2 heps row0
    · rw [projection_pfin_other v eps hq1 hq2] at hp
      cases hp

/-- Witness for C1: `projection [[3]] 2 ∞ = [[2]]` and the returned row has
sup-norm at most `2`. -/
theorem projection_rows_norm_le_witness : normP Pnorm.pinf [(2 : ℝ)] ≤ 2 := by
  have hproj : projection [[(3 : ℝ)]] 2 Pnorm.pinf = some [[(2 : ℝ)]] := by
    rw [projection_pinf]
    norm_num [Real.sign_of_pos (show (0 : ℝ) < 3 by norm_num)]
  exact projection_rows_norm_le [[(3 : ℝ)]] 2 Pnorm.pinf [[(2 : ℝ)]] (by norm_num)
    hproj [(2 : ℝ)] (by simp)

/-- C4: every row whose `p`-norm is already at most `eps` is returned
unchanged by `projection`. -/
theorem projection_id_on_ball :
    ∀ (v : List (List ℝ)) (eps : ℝ) (p : Pnorm) (out : List (List ℝ)) (i : ℕ)
      (row : List ℝ),
      0 < eps → projection v eps p = some out → v[i]? = some row →
      normP p row ≤ eps → out[i]? = some row := by
  intro v eps p out i row heps hp hv hnorm
  cases p with
  | pinf =>
    rw [projection_pinf, Option.some.injEq] at hp
    subst hp
    rw [List.getElem?_map, hv, Option.map_some']
    congr 1
    apply map_eq_self_of_mem
    intro x hx
    exact inf_entry_id (le_trans (abs_le_normInf hx) (by simpa [normP] using hnorm))
  | pfin q =>
    by_cases hq1 : q = 1
    · subst hq1
      rw [projection_pfin_one, Option.some.injEq] at hp
      subst hp
      rw [List.getElem?_map, hv, Option.map_some']
      congr 1
      exact projRow_id goodNorm_norm1 (by simpa [normP] using hnorm)
    by_cases hq2 : q = 2
    · subst hq2
      rw [projection_pfin_two, Option.some.injEq] at hp
      subst hp
      rw [List.getElem?_map, hv, Option.map_some']
      congr 1
      exact projRow_id goodNorm_norm2 (by simpa [normP] using hnorm)
    · rw [projection_pfin_other v eps hq1 hq2] at hp
      cases hp

/-- Witness for C4: the row `[1]` has sup-norm `1 ≤ 2` and is returned
unchanged. -/
theorem projection_id_on_ball_witness :
    ([[(1 : ℝ)]] : List (List ℝ))[0]? = some [(1 : ℝ)] := by
  have hproj : projection [[(1 : ℝ)]] 2 Pnorm.pinf = some [[(1 : ℝ)]] := by
    rw [projection_pinf]
    norm_num [Real.sign_one]
  exact projection_id_on_ball [[(1 : ℝ)]] 2 Pnorm.pinf [[(1 : ℝ)]] 0 [(1 : ℝ)]
    (by norm_num) hproj (by simp)
    (by norm_num [normP, normInf])

/-- C6: `projection` is idempotent: re-projecting its output returns the
output unchanged. -/
theorem projection_idempotent :
    ∀ (v : List (List ℝ)) (eps : ℝ) (p : Pnorm) (out : List (List ℝ)),
      0 < eps → projection v eps p = some out →
      projection out eps p = some out := by
  intro v eps p out heps hp
  cases p with
  | pinf =>
    rw [projection_pinf, Option.some.injEq] at hp
    subst hp
    rw [projection_pinf, Option.some.injEq]
    apply map_eq_self_of_mem
    intro w hw
    obtain ⟨row0, _, rfl⟩ := List.mem_map.1 hw
    apply map_eq_self_of_mem
    intro x hx
    obtain ⟨y, _, rfl⟩ := List.mem_map.1 hx
    exact inf_entry_id (inf_entry_abs_le heps y)
  | pfin q =>
    by_cases hq1 : q = 1
    · subst hq1
      rw [projection_pfin_one, Option.some.injEq] at hp
      subst hp
      rw [projection_pfin_one, Option.some.injEq]
      apply map_eq_self_of_mem
      intro w hw
      obtain ⟨row0, _, rfl⟩ := List.mem_map.1 hw
      exact projRow_id goodNorm_norm1 (projRow_norm_le goodNorm_norm1 heps row0)
    by_cases hq2 : q = 2
    · subst hq2
      rw [projection_pfin_two, Option.some.injEq] at hp
      subst hp
      rw [projection_pfin_two, Option.some.injEq]
      apply map_eq_self_of_mem
      intro w hw
      obtain ⟨row0, _, rfl⟩ := List.mem_map.1 hw
      exact projRow_id goodNorm_norm2 (projRow_norm_le goodNorm_norm2 heps row0)
    · rw [projection_pfin_other v eps hq1 hq2] at hp
      cases hp

/-- Witness for C6: re-projecting `projection [[3]] 2 ∞ = [[2]]` leaves
`[[2]]` unchanged. -/
theorem projection_idempotent_witness :
    projection [[(2 : ℝ)]] 2 Pnorm.pinf = some [[(2 : ℝ)]] := by
  have hproj : projection [[(3 : ℝ)]] 2 Pnorm.pinf = some [[(2 : ℝ)]] := by
    rw [projection_pinf]
    norm_num [Real.sign_of_pos (show (0 : ℝ) < 3 by norm_num)]
  exact projection_idempotent [[(3 : ℝ)]] 2 Pnorm.pinf [[(2 : ℝ)]] (by norm_num) hproj

theorem sumSq_34 : sumSq [(3 : ℝ), 4] = 25 := by
  simp [sumSq]
  norm_num

theorem norm2_34 : norm2 [(3 : ℝ), 4] = 5 := by
  rw [norm2, sumSq_34, show (25 : ℝ) = 5 ^ 2 by norm_num,
    Real.sqrt_sq (by norm_num : (0 : ℝ) ≤ 5)]

theorem normP_two_34 : normP (Pnorm.pfin 2) [(3 : ℝ), 4] = 5 := by
  rw [show normP (Pnorm.pfin 2) = norm2 by norm_num [normP], norm2_34]

/-- C8: for `p ∈ {1, 2}`, a row whose norm exceeds `eps` is scaled by
exactly the scalar `eps / norm`; in particular
`projection [[3,4]] (5/2) 2 = [[3/2, 2]]` while `projection [[3,4]] 5 2`
returns `[[3, 4]]` unchanged. -/
theorem projection_exact_scaling :
    (∀ (v : List (List ℝ)) (eps : ℝ) (q : ℚ) (out : List (List ℝ)) (i : ℕ)
      (row : List ℝ),
      (q = 1 ∨ q = 2) → 0 < eps → projection v eps (Pnorm.pfin q) = some out →
      v[i]? = some row → eps < normP (Pnorm.pfin q) row →
      out[i]? = some (row.map (fun x => x * (eps / normP (Pnorm.pfin q) row)))) ∧
    projection [[(3 : ℝ), 4]] (5 / 2) (Pnorm.pfin 2) = some [[3 / 2, 2]] ∧
    projection [[(3 : ℝ), 4]] 5 (Pnorm.pfin 2) = some [[(3 : ℝ), 4]] := by
  refine ⟨?_, ?_, ?_⟩
  · intro v eps q out i row hq heps hp hv hlt
    have key : ∀ nrmOf : List ℝ → ℝ, nrmOf row = normP (Pnorm.pfin q) row →
        (v.map (projRow nrmOf eps))[i]?
          = some (row.map (fun x => x * (eps / normP (Pnorm.pfin q) row))) := by
      intro nrmOf hn
      rw [List.getElem?_map, hv, Option.map_some']
      congr 1
      rw [projRow_eq, hn]
      have hpos : 0 < normP (Pnorm.pfin q) row := lt_trans heps hlt
      rw [min_eq_right (le_of_lt ((div_lt_one hpos).2 hlt))]
    rcases hq with rfl | rfl
    · rw [projection_pfin_one, Option.some.injEq] at hp
      subst hp
      exact key norm1 (by norm_num [normP])
    · rw [projection_pfin_two, Option.some.injEq] at hp
      subst hp
      exact key norm2 (by norm_num [normP])
  · rw [projection_pfin_two, Option.some.injEq]
    have hrow : projRow norm2 (5 / 2) [(3 : ℝ), 4] = [3 / 2, 2] := by
      rw [projRow_eq, norm2_34]
      norm_num
    simp [hrow]
  · rw [projection_pfin_two, Option.some.injEq]
    have hrow : projRow norm2 5 [(3 : ℝ), 4] = [(3 : ℝ), 4] := by
      rw [projRow_eq, norm2_34]
      norm_num
    simp [hrow]

/-- Witness for C8: applying the exact-scaling statement to the row `[3, 4]`
with `eps = 5/2`, whose `L2` norm is `5 > 5/2`. -/
theorem projection_exact_scaling_witness :
    (5 : ℝ) / 2 < normP (Pnorm.pfin 2) [(3 : ℝ), 4] ∧
    ([[(3 : ℝ) / 2, 2]] : List (List ℝ))[0]?
      = some ([(3 : ℝ), 4].map (fun x => x * ((5 / 2) / normP (Pnorm.pfin 2) [(3 : ℝ), 4]))) := by
  constructor
  · rw [normP_two_34]
    norm_num
  · exact projection_exact_scaling.1 [[(3 : ℝ), 4]] (5 / 2) 2 [[(3 : ℝ) / 2, 2]] 0
      [(3 : ℝ), 4] (Or.inr rfl) (by norm_num) projection_exact_scaling.2.1 (by simp)
      (by rw [normP_two_34]; norm_num)

/-! ### The L1 gap construction of `random_sphere` -/

theorem random_sphere_pfin_one (m n : ℕ) (r : ℝ) (d : Draws) :
    random_sphere m n r (Pnorm.pfin 1) d
      = some ((List.range m).map (fun i => l1Row n d i)) := by
  simp [random_sphere]

theorem random_sphere_pfin_two (m n : ℕ) (r : ℝ) (d : Draws) :
    random_sphere m n r (Pnorm.pfin 2) d
      = some ((List.range m).map (fun i => l2Row n r (d.gauss i))) := by
  norm_num [random_sphere]

theorem random_sphere_pinf (m n : ℕ) (r : ℝ) (d : Draws) :
    random_sphere m n r Pnorm.pinf d
      = some ((List.range m).map (fun i => (List.range n).map (fun j => d.unifs i j))) :=
  rfl

theorem random_sphere_pfin_other (m n : ℕ) (r : ℝ) (d : Draws) {q : ℚ}
    (h1 : q ≠ 1) (h2 : q ≠ 2) : random_sphere m n r (Pnorm.pfin q) d = none := by
  simp [random_sphere, h1, h2]

theorem gaps_sum : ∀ (l : List ℝ) (x : ℝ), (gaps (x :: l)).sum = l.getLastD x - x := by
  intro l
  induction l with
  | nil => intro x; simp [gaps]
  | cons y t ih =>
    intro x
    simp only [gaps, List.sum_cons, List.getLastD_cons]
    rw [ih y]
    ring

theorem gaps_nonneg : ∀ {l : List ℝ}, List.Chain' (· ≤ ·) l → ∀ g ∈ gaps l, 0 ≤ g := by
  intro l
  induction l with
  | nil => intro _ g hg; cases hg
  | cons x t ih =>
    intro hc g hg
    cases t with
    | nil => cases hg
    | cons y t2 =>
      rw [List.chain'_cons] at hc
      simp only [gaps, List.mem_cons] at hg
      rcases hg with rfl | hg
      · linarith [hc.1]
      · exact ih hc.2 g hg

theorem gaps_length : ∀ l : List ℝ, (gaps l).length = l.length - 1 := by
  intro l
  induction l with
  | nil => simp [gaps]
  | cons x t ih =>
    cases t with
    | nil => simp [gaps]
    | cons y t2 =>
      simp only [gaps, List.length_cons] at *
      omega

theorem getLastD_append_singleton : ∀ (s : List ℝ) (b x : ℝ), (s ++ [b]).getLastD x = b := by
  intro s
  induction s with
  | nil => intro b x; rfl
  | cons a t ih =>
    intro b x
    rw [List.cons_append, List.getLastD_cons]
    exact ih b a

theorem chain'_sorted_sandwich :
    ∀ (s : List ℝ) (a b : ℝ), a ≤ b → (∀ x ∈ s, a ≤ x ∧ x ≤ b) →
      List.Pairwise (· ≤ ·) s → List.Chain' (· ≤ ·) (a :: (s ++ [b])) := by
  intro s
  induction s with
  | nil =>
    intro a b hab _ _
    exact List.chain'_cons.2 ⟨hab, List.chain'_singleton b⟩
  | cons x t ih =>
    intro a b hab hbd hpw
    rw [List.cons_append, List.chain'_cons]
    refine ⟨(hbd x (by simp)).1, ?_⟩
    apply ih x b (hbd x (by simp)).2
    · intro y hy
      exact ⟨(List.pairwise_cons.1 hpw).1 y hy, (hbd y (by simp [hy])).2⟩
    · exact (List.pairwise_cons.1 hpw).2

theorem npSort_pairwise (l : List ℝ) : List.Pairwise (· ≤ ·) (npSort l) := by
  have h := @List.sorted_mergeSort ℝ (fun a b : ℝ => decide (a ≤ b))
    (fun a b c hab hbc => by
      simp only [decide_eq_true_eq] at *
      exact le_trans hab hbc)
    (fun a b => by
      simp only [Bool.or_eq_true, decide_eq_true_eq]
      exact le_total a b) l
  exact h.imp fun hab => of_decide_eq_true hab

theorem npSort_mem {l : List ℝ} {x : ℝ} : x ∈ npSort l ↔ x ∈ l := List.mem_mergeSort

theorem npSort_length (l : List ℝ) : (npSort l).length = l.length :=
  List.length_mergeSort l

theorem l1Cuts_chain (d : Draws) (i : ℕ)
    (hc : ∀ c ∈ d.cuts i, 0 ≤ c ∧ c ≤ Real.sqrt (d.radii i)) :
    List.Chain' (· ≤ ·) (l1Cuts d i) := by
  apply chain'_sorted_sandwich _ _ _ (Real.sqrt_nonneg _)
  · intro x hx
    exact hc x (npSort_mem.1 hx)
  · exact npSort_pairwise _

theorem l1Gaps_sum (d : Draws) (i : ℕ) :
    (gaps (l1Cuts d i)).sum = Real.sqrt (d.radii i) := by
  rw [l1Cuts, gaps_sum, getLastD_append_singleton, sub_zero]

theorem l1Gaps_length (d : Draws) (i : ℕ) :
    (gaps (l1Cuts d i)).length = (d.cuts i).length + 1 := by
  rw [gaps_length, l1Cuts]
  simp [npSort_length]

theorem norm1_zipWith_signs :
    ∀ (g s : List ℝ), (∀ x ∈ s, x = 1 ∨ x = -1) → (∀ x ∈ g, 0 ≤ x) →
      g.length ≤ s.length →
      norm1 (List.zipWith (fun a b => a * b) g s) = g.sum := by
  intro g
  induction g with
  | nil => intro s _ _ _; simp [norm1]
  | cons a t ih =>
    intro s hs hg hlen
    cases s with
    | nil => simp at hlen
    | cons b u =>
      simp only [List.zipWith_cons_cons, norm1, List.map_cons, List.sum_cons]
      have hb : |b| = 1 := by
        rcases hs b (by simp) with rfl | rfl <;> norm_num
      have ha : |a * b| = a := by
        rw [abs_mul, hb, mul_one, abs_of_nonneg (hg a (by simp))]
      rw [ha]
      have ht := ih u (fun x hx => hs x (by simp [hx])) (fun x hx => hg x (by simp [hx]))
        (by simpa using hlen)
      unfold norm1 at ht
      rw [ht]

theorem l1Row_norm1 (n : ℕ) (d : Draws) (i : ℕ) (hn : 1 ≤ n)
    (hlen : (d.cuts i).length = n - 1)
    (hc : ∀ c ∈ d.cuts i, 0 ≤ c ∧ c ≤ Real.sqrt (d.radii i))
    (hs : ∀ j < n, d.signs i j = 1 ∨ d.signs i j = -1) :
    norm1 (l1Row n d i) = Real.sqrt (d.radii i) := by
  rw [l1Row, norm1_zipWith_signs, l1Gaps_sum]
  · intro x hx
    obtain ⟨j, hj, rfl⟩ := List.mem_map.1 hx
    exact hs j (List.mem_range.1 hj)
  · exact gaps_nonneg (l1Cuts_chain d i hc)
  · rw [l1Gaps_length, hlen, List.length_map, List.length_range]
    omega

/-! ### The gamma-based L2 construction -/

theorem regGammaP_nonneg (a x : ℝ) (ha : 0 < a) : 0 ≤ regGammaP a x := by
  apply div_nonneg _ (Real.Gamma_pos_of_pos ha).le
  apply MeasureTheory.setIntegral_nonneg measurableSet_Ioc
  intro t ht
  exact mul_nonneg (Real.exp_nonneg _) (Real.rpow_nonneg ht.1.le _)

theorem regGammaP_le_one (a x : ℝ) (ha : 0 < a) : regGammaP a x ≤ 1 := by
  rw [regGammaP, div_le_one (Real.Gamma_pos_of_pos ha), Real.Gamma_eq_integral ha]
  apply MeasureTheory.setIntegral_mono_set (Real.GammaIntegral_convergent ha)
  · refine (MeasureTheory.ae_restrict_iff' measurableSet_Ioi).2
      (Filter.Eventually.of_forall ?_)
    intro t ht
    exact mul_nonneg (Real.exp_nonneg _) (Real.rpow_nonneg (le_of_lt ht) _)
  · exact (Set.Ioc_subset_Ioi_self).eventuallyLE

theorem l2Row_eq (n : ℕ) (r : ℝ) (a : List ℝ) :
    l2Row n r a = a.map (fun x =>
      x * (regGammaP ((n : ℝ) / 2) (sumSq a / 2) ^ ((1 : ℝ) / n) * r / Real.sqrt (sumSq a))) :=
  rfl

theorem l2Row_norm2_le (n : ℕ) (r : ℝ) (a : List ℝ) (hn : 1 ≤ n) (hr : 0 < r) :
    norm2 (l2Row n r a) ≤ r := by
  have hnpos : (0 : ℝ) < (n : ℝ) / 2 := by
    have : (0 : ℝ) < (n : ℝ) := by exact_mod_cast Nat.lt_of_lt_of_le Nat.zero_lt_one hn
    linarith
  rw [l2Row_eq, norm2_map_mul]
  rcases eq_or_lt_of_le (sumSq_nonneg a) with h0 | hpos
  · have : norm2 a = 0 := by
      rw [norm2, ← h0, Real.sqrt_zero]
    rw [this, zero_mul]
    exact hr.le
  · have hG0 : 0 ≤ regGammaP ((n : ℝ) / 2) (sumSq a / 2) := regGammaP_nonneg _ _ hnpos
    have hG1 : regGammaP ((n : ℝ) / 2) (sumSq a / 2) ≤ 1 := regGammaP_le_one _ _ hnpos
    have hGp1 : regGammaP ((n : ℝ) / 2) (sumSq a / 2) ^ ((1 : ℝ) / n) ≤ 1 :=
      Real.rpow_le_one hG0 hG1 (by positivity)
    have hGp0 : 0 ≤ regGammaP ((n : ℝ) / 2) (sumSq a / 2) ^ ((1 : ℝ) / n) :=
      Real.rpow_nonneg hG0 _
    have hsq : 0 < Real.sqrt (sumSq a) := Real.sqrt_pos.2 hpos
    rw [abs_of_nonneg (by positivity), norm2]
    calc Real.sqrt (sumSq a) *
          (regGammaP ((n : ℝ) / 2) (sumSq a / 2) ^ ((1 : ℝ) / n) * r / Real.sqrt (sumSq a))
        = regGammaP ((n : ℝ) / 2) (sumSq a / 2) ^ ((1 : ℝ) / n) * r := by
          field_simp
    _ ≤ 1 * r := mul_le_mul_of_nonneg_right hGp1 hr.le
    _ = r := one_mul r

/-! ### Claims C3, C9, C10 -/

/-- C3: for `m, n ≥ 1`, `r > 0` and `p ∈ {1, 2, ∞}`, every realization of
the random draws (the draws lying in the ranges of the distributions they
come from) makes every row of `random_sphere` have `p`-norm at most `r`. -/
theorem random_sphere_rows_norm_le :
    ∀ (m n : ℕ) (r : ℝ) (p : Pnorm) (d : Draws) (out : List (List ℝ)),
      1 ≤ m → 1 ≤ n → 0 < r → L1DrawsOk m n r d → LinfDrawsOk m n r d →
      random_sphere m n r p d = some out →
      ∀ row ∈ out, normP p row ≤ r := by
  intro m n r p d out _ hn hr h1 hinf hp row hrow
  cases p with
  | pinf =>
    rw [random_sphere_pinf, Option.some.injEq] at hp
    subst hp
    obtain ⟨i, hi, rfl⟩ := List.mem_map.1 hrow
    have hi' : i < m := List.mem_range.1 hi
    simp only [normP]
    apply normInf_le hr.le
    intro x hx
    obtain ⟨j, hj, rfl⟩ := List.mem_map.1 hx
    exact abs_le.2 (hinf i hi' j (List.mem_range.1 hj))
  | pfin q =>
    by_cases hq1 : q = 1
    · subst hq1
      rw [random_sphere_pfin_one, Option.some.injEq] at hp
      subst hp
      obtain ⟨i, hi, rfl⟩ := List.mem_map.1 hrow
      obtain ⟨hr0, hrr, hlen, hc, hs⟩ := h1 i (List.mem_range.1 hi)
      have hnorm : norm1 (l1Row n d i) = Real.sqrt (d.radii i) :=
        l1Row_norm1 n d i hn hlen hc hs
      rw [show normP (Pnorm.pfin 1) = norm1 by simp [normP], hnorm]
      calc Real.sqrt (d.radii i) ≤ Real.sqrt (r ^ 2) := Real.sqrt_le_sqrt hrr
      _ = r := Real.sqrt_sq hr.le
    by_cases hq2 : q = 2
    · subst hq2
      rw [random_sphere_pfin_two, Option.some.injEq] at hp
      subst hp
      obtain ⟨i, _, rfl⟩ := List.mem_map.1 hrow
      rw [show normP (Pnorm.pfin 2) = norm2 by norm_num [normP]]
      exact l2Row_norm2_le n r (d.gauss i) hn hr
    · rw [random_sphere_pfin_other m n r d hq1 hq2] at hp
      cases hp

theorem dOnes_L1Ok : L1DrawsOk 1 1 1 dOnes := by
  intro i _
  refine ⟨by norm_num [dOnes], by norm_num [dOnes], rfl, by simp [dOnes], ?_⟩
  intro j _
  exact Or.inl rfl

theorem dOnes_LinfOk : LinfDrawsOk 1 1 1 dOnes := by
  intro i _ j _
  constructor <;> norm_num [dOnes]

/-- Witness for C3: the sup-norm draw with all uniforms equal to `0` yields
the row `[0]`, of sup-norm at most `1`. -/
theorem random_sphere_rows_norm_le_witness : normP Pnorm.pinf [(0 : ℝ)] ≤ 1 := by
  have hout : random_sphere 1 1 1 Pnorm.pinf dOnes = some [[(0 : ℝ)]] := by
    rw [random_sphere_pinf]
    simp [dOnes, List.range_succ]
  exact random_sphere_rows_norm_le 1 1 1 Pnorm.pinf dOnes [[(0 : ℝ)]] le_rfl le_rfl
    (by norm_num) dOnes_L1Ok dOnes_LinfOk hout [(0 : ℝ)] (by simp)

/-- C10: in the L1 branch the consecutive gaps of each row are nonnegative,
the L1 norm of the returned row equals exactly the drawn endpoint
`B = sqrt(uniform(0, r²))`, and for `n = 1` the row degenerates to the
single coordinate `±B`. -/
theorem l1_gaps_and_exact_norm :
    ∀ (m n : ℕ) (r : ℝ) (d : Draws) (out : List (List ℝ)),
      1 ≤ n → 0 < r → L1DrawsOk m n r d →
      random_sphere m n r (Pnorm.pfin 1) d = some out →
      ∀ i < m,
        (∀ g ∈ gaps (l1Cuts d i), 0 ≤ g) ∧
        norm1 (out.getD i []) = Real.sqrt (d.radii i) ∧
        (n = 1 → out.getD i [] = [Real.sqrt (d.radii i) * d.signs i 0]) := by
  intro m n r d out hn hr h1 hp i hi
  rw [random_sphere_pfin_one, Option.some.injEq] at hp
  subst hp
  obtain ⟨hr0, hrr, hlen, hc, hs⟩ := h1 i hi
  have hget : ((List.range m).map (fun i => l1Row n d i)).getD i [] = l1Row n d i := by
    rw [List.getD_eq_getElem?_getD, List.getElem?_map, List.getElem?_range hi,
      Option.map_some']
    rfl
  refine ⟨gaps_nonneg (l1Cuts_chain d i hc), ?_, ?_⟩
  · rw [hget]
    exact l1Row_norm1 n d i hn hlen hc hs
  · intro hn1
    subst hn1
    have hcuts : d.cuts i = [] := List.eq_nil_of_length_eq_zero (by simpa using hlen)
    rw [hget, l1Row, l1Cuts, hcuts]
    simp only [npSort, List.mergeSort_nil, List.nil_append, gaps, List.range_succ,
      List.range_zero, List.nil_append, List.map_cons, List.map_nil,
      List.zipWith_cons_cons, List.zipWith_nil_right]
    rw [sub_zero]

/-- Witness for C10 at `m = n = r = 1` with the draws `dOnes`: the single
row has L1 norm exactly `sqrt(radii 0)`. -/
theorem l1_gaps_and_exact_norm_witness :
    norm1 ([l1Row 1 dOnes 0].getD 0 []) = Real.sqrt (dOnes.radii 0) := by
  have hout : random_sphere 1 1 1 (Pnorm.pfin 1) dOnes = some [l1Row 1 dOnes 0] := by
    rw [random_sphere_pfin_one]
    simp [List.range_succ]
  exact (l1_gaps_and_exact_norm 1 1 1 dOnes [l1Row 1 dOnes 0] le_rfl (by norm_num)
    dOnes_L1Ok hout 0 (by norm_num)).2.1

theorem getD_map_range {α : Type} (m : ℕ) (f : ℕ → α) (dflt : α) (i : ℕ) :
    ((List.range m).map f).getD i dflt = if i < m then f i else dflt := by
  rw [List.getD_eq_getElem?_getD, List.getElem?_map]
  by_cases hi : i < m
  · rw [List.getElem?_range hi]
    simp [hi]
  · rw [List.getElem?_eq_none (by simpa [List.length_range] using not_lt.1 hi)]
    simp [hi]

theorem entry_map_range (m : ℕ) (f : ℕ → List ℝ) (i j : ℕ) :
    entry ((List.range m).map f) i j = if i < m then (f i).getD j 0 else 0 := by
  rw [entry, getD_map_range]
  split
  · rfl
  · rfl

theorem l1Row_getD (n : ℕ) (d : Draws) (i j : ℕ) :
    (l1Row n d i).getD j 0
      = if j < n then (gaps (l1Cuts d i)).getD j 0 * d.signs i j else 0 := by
  rw [l1Row, List.getD_eq_getElem?_getD, List.getElem?_zipWith, List.getElem?_map]
  by_cases hj : j < n
  · rw [List.getElem?_range hj, Option.map_some']
    cases hg : (gaps (l1Cuts d i))[j]? with
    | none =>
      rw [List.getD_eq_getElem?_getD, hg]
      simp [hj]
    | some g =>
      rw [List.getD_eq_getElem?_getD, hg]
      simp [hj]
  · have hrange : (List.range n)[j]? = none :=
      List.getElem?_eq_none (by simpa [List.length_range] using not_lt.1 hj)
    rw [hrange]
    simp only [Option.map_none']
    cases hg : (gaps (l1Cuts d i))[j]? <;> simp [hj]

/-- C9: in the `norm == 1` branch the sign multiplying each gap is a
separate draw for every coordinate of every row (the code draws an `m × n`
sign array).  Flipping the single sign draw at position `(i0, j0)` negates
exactly entry `(i0, j0)` of the output and leaves every other entry of every
row unchanged — which would be impossible if one shared sign vector were
reused across the batch. -/
theorem l1_signs_independent_per_entry :
    ∀ (m n : ℕ) (r : ℝ) (d dp : Draws) (i0 j0 : ℕ) (out outp : List (List ℝ)),
      i0 < m → j0 < n →
      dp.radii = d.radii → dp.cuts = d.cuts →
      (∀ i j, ¬(i = i0 ∧ j = j0) → dp.signs i j = d.signs i j) →
      dp.signs i0 j0 = -d.signs i0 j0 →
      random_sphere m n r (Pnorm.pfin 1) d = some out →
      random_sphere m n r (Pnorm.pfin 1) dp = some outp →
      entry outp i0 j0 = -entry out i0 j0 ∧
      (∀ i j, ¬(i = i0 ∧ j = j0) → entry outp i j = entry out i j) := by
  intro m n r d dp i0 j0 out outp hi0 hj0 hrad hcuts hagree hflip hp hpp
  rw [random_sphere_pfin_one, Option.some.injEq] at hp hpp
  subst hp
  subst hpp
  have hC : ∀ i, l1Cuts dp i = l1Cuts d i := by
    intro i
    rw [l1Cuts, l1Cuts, hrad, hcuts]
  constructor
  · rw [entry_map_range, entry_map_range, if_pos hi0, if_pos hi0,
      l1Row_getD, l1Row_getD, if_pos hj0, if_pos hj0, hC, hflip, mul_neg]
  · intro i j hne
    rw [entry_map_range, entry_map_range]
    by_cases hi : i < m
    · rw [if_pos hi, if_pos hi, l1Row_getD, l1Row_getD]
      by_cases hj : j < n
      · rw [if_pos hj, if_pos hj, hC, hagree i j hne]
      · rw [if_neg hj, if_neg hj]
    · rw [if_neg hi, if_neg hi]

/-- Witness for C9: flipping the sign draw at `(0, 0)` (the records `dOnes`
and `dFlip`) negates entry `(0, 0)` of the sampled batch. -/
theorem l1_signs_independent_per_entry_witness :
    entry [l1Row 1 dFlip 0] 0 0 = -entry [l1Row 1 dOnes 0] 0 0 := by
  have hout : random_sphere 1 1 1 (Pnorm.pfin 1) dOnes = some [l1Row 1 dOnes 0] := by
    rw [random_sphere_pfin_one]
    simp [List.range_succ]
  have houtp : random_sphere 1 1 1 (Pnorm.pfin 1) dFlip = some [l1Row 1 dFlip 0] := by
    rw [random_sphere_pfin_one]
    simp [List.range_succ]
  have hagree : ∀ i j, ¬(i = 0 ∧ j = 0) → dFlip.signs i j = dOnes.signs i j := by
    intro i j h
    by_cases hi : i = 0
    · by_cases hj : j = 0
      · exact absurd ⟨hi, hj⟩ h
      · simp [dFlip, dOnes, hi, hj]
    · simp [dFlip, dOnes, hi]
  exact (l1_signs_independent_per_entry 1 1 1 dOnes dFlip 0 0
    [l1Row 1 dOnes 0] [l1Row 1 dFlip 0] one_pos one_pos rfl rfl hagree
    (by norm_num [dFlip, dOnes]) hout houtp).1

end ArtUtils
